import Mathlib

/-!
Shallow embedding of the dynamic DOM translation engine
(`src/modules/NodesTranslator.tsx` and
`src/modules/PageTranslator/PageTranslator.tsx`).

DOM node object identity is modelled by natural-number node ids (`NId`);
the static tree shape (kinds, parent pointers, child lists, attribute
lists, shadow children, attribute owners) lives in a `Dom` value, while
the mutable `nodeValue` of each node and the translator's bookkeeping
(the `WeakMap` node storage, the id counter, the intersection
registration set and the set of observed roots) live in a `TrState`.
Maps are association lists with map semantics (`lookupA` finds the first
binding, `insertA` replaces it, `eraseA` drops every binding of a key).
Asynchronous translation is modelled by splitting `translateNode` into a
synchronous part that issues a `Request` capturing the node, its record
id and its update counter, and a resolution step `resolveTranslate`
applying the translated text, mirroring the promise continuation in the
source. Geometry queries (`isInViewport`) are an oracle field of `Dom`.
-/

namespace DomTranslate

/-- Node identifier, standing for DOM node object identity. -/
abbrev NId := Nat

/-- The kind of a DOM node: element with its `localName`, attribute with
its name, text node, or any other node type. -/
inductive NodeKind where
  | element (tag : String)
  | attrNode (name : String)
  | textNode
  | otherNode
deriving DecidableEq, Repr

/-- Static data of one DOM node: its kind, `parentNode`, child list (in
document order), attribute nodes (elements only), the children of its
shadow root (elements only) and, for attribute nodes, `ownerElement`. -/
structure DomNode where
  kind : NodeKind
  parent : Option NId := none
  children : List NId := []
  attList : List NId := []
  shadowChildren : List NId := []
  owner : Option NId := none
deriving DecidableEq, Repr

/-- A document: the node table, the id of `document.body`, and the
oracle listing the elements for which the geometric `isInViewport`
query currently answers true. -/
structure Dom where
  nodes : List (NId × DomNode)
  bodyId : NId
  viewport : List NId := []
deriving DecidableEq, Repr

/-- Association-list lookup: the first binding of the key. -/
def lookupA {α : Type} : List (Nat × α) → Nat → Option α
  | [], _ => none
  | (k, v) :: rest, n => if k = n then some v else lookupA rest n

/-- Association-list insert/replace for the key. -/
def insertA {α : Type} : List (Nat × α) → Nat → α → List (Nat × α)
  | [], n, v => [(n, v)]
  | (k, w) :: rest, n, v =>
      if k = n then (n, v) :: rest else (k, w) :: insertA rest n v

/-- Association-list delete: drops every binding of the key. -/
def eraseA {α : Type} : List (Nat × α) → Nat → List (Nat × α)
  | [], _ => []
  | (k, w) :: rest, n =>
      if k = n then eraseA rest n else (k, w) :: eraseA rest n

theorem lookupA_insertA_self {α : Type} (l : List (Nat × α)) (n : Nat) (v : α) :
    lookupA (insertA l n v) n = some v := by
  induction l with
  | nil => simp [insertA, lookupA]
  | cons p rest ih =>
      obtain ⟨k, w⟩ := p
      by_cases h : k = n
      · simp [insertA, lookupA, h]
      · simp [insertA, lookupA, h, ih]

theorem lookupA_insertA_ne {α : Type} (l : List (Nat × α)) (n m : Nat) (v : α)
    (h : m ≠ n) : lookupA (insertA l n v) m = lookupA l m := by
  have h2 : ¬(n = m) := fun hh => h hh.symm
  induction l with
  | nil => simp [insertA, lookupA, h2]
  | cons p rest ih =>
      obtain ⟨k, w⟩ := p
      by_cases hk : k = n
      · subst hk
        simp [insertA, lookupA, h2]
      · simp [insertA, lookupA, hk, ih]

theorem lookupA_eraseA_self {α : Type} (l : List (Nat × α)) (n : Nat) :
    lookupA (eraseA l n) n = none := by
  induction l with
  | nil => simp [eraseA, lookupA]
  | cons p rest ih =>
      obtain ⟨k, w⟩ := p
      by_cases h : k = n
      · simp [eraseA, h, ih]
      · simp [eraseA, lookupA, h, ih]

theorem lookupA_eraseA_ne {α : Type} (l : List (Nat × α)) (n m : Nat)
    (h : m ≠ n) : lookupA (eraseA l n) m = lookupA l m := by
  have h2 : ¬(n = m) := fun hh => h hh.symm
  induction l with
  | nil => simp [eraseA]
  | cons p rest ih =>
      obtain ⟨k, w⟩ := p
      by_cases hk : k = n
      · subst hk
        simp [eraseA, lookupA, h2, ih]
      · simp [eraseA, lookupA, hk, ih]

/-- Fallback node used for ids absent from the table. -/
def defaultNode : DomNode := { kind := .otherNode }

/-- The node a given id stands for. -/
def getNode (dom : Dom) (n : NId) : DomNode :=
  (lookupA dom.nodes n).getD defaultNode

/-- Whether the node is an `Element` (`node instanceof Element`). -/
def isElement (dom : Dom) (n : NId) : Bool :=
  match (getNode dom n).kind with
  | .element _ => true
  | _ => false

/-- The element's `localName` (empty for non-elements). -/
def tagOf (dom : Dom) (n : NId) : String :=
  match (getNode dom n).kind with
  | .element tag => tag
  | _ => ""

/-- The node's `parentElement`: its parent when that parent is an element. -/
def parentElement (dom : Dom) (n : NId) : Option NId :=
  match (getNode dom n).parent with
  | some p => if isElement dom p then some p else none
  | none => none

/-- Fuel bound for parent-chain climbs and tree traversals: one more
than the size of the node table, enough for any acyclic document. -/
def fuelOf (dom : Dom) : Nat := dom.nodes.length + 1

/-- Geometry oracle for `isInViewport` (the source computes it from
`getBoundingClientRect`, outside this model). -/
def isInViewport (dom : Dom) (n : NId) : Bool :=
  dom.viewport.contains n

/-- The `while ((lookingNode = lookingNode.parentNode))` loop of
`searchParent`: the first strict ancestor satisfying the predicate. -/
def climbParent (dom : Dom) (p : NId → Bool) : Nat → NId → Option NId
  | 0, _ => none
  | fuel + 1, n =>
      match (getNode dom n).parent with
      | none => none
      | some q => if p q then some q else climbParent dom p fuel q

/-- Embedding of `searchParent`: with `includeSelf` the node itself is
returned when it satisfies the predicate, else the parent chain is
climbed and the first satisfying ancestor (or `none`) is returned. -/
def searchParent (dom : Dom) (p : NId → Bool) (includeSelf : Bool) (n : NId) :
    Option NId :=
  if includeSelf && p n then some n else climbParent dom p (fuelOf dom) n

/-- The predicate `searchParent` is called with inside
`isTranslatableNode`: an element whose tag is in the ignore set. -/
def ignoredPred (dom : Dom) (ignoredTags : List String) (n : NId) : Bool :=
  isElement dom n && ignoredTags.contains (tagOf dom n)

/-- Inner configuration of the translator (the three fields of
`InnerConfig`; the sets are modelled as lists with membership). -/
structure Config where
  ignoredTags : List String := []
  translatableAttributes : List String := []
  lazyTranslate : Bool := true
deriving DecidableEq, Repr

/-- The parents-to-ignore check of `isTranslatableNode`: a `none` target
skips the check, otherwise the target and its ancestors are searched for
an ignored element. -/
def checkParents (dom : Dom) (cfg : Config) : Option NId → Bool
  | none => true
  | some e => (searchParent dom (ignoredPred dom cfg.ignoredTags) true e).isNone

/-- Embedding of `NodesTranslator.isTranslatableNode`: per-kind filters
(ignored tag for elements, allow-list for attributes), then the
ancestors-inclusive ignored-tag walk on the resolved element. -/
def isTranslatableNode (dom : Dom) (cfg : Config) (n : NId) : Bool :=
  match (getNode dom n).kind with
  | .element tag =>
      if cfg.ignoredTags.contains tag then false
      else checkParents dom cfg (some n)
  | .attrNode name =>
      if ¬ cfg.translatableAttributes.contains name then false
      else checkParents dom cfg (getNode dom n).owner
  | .textNode => checkParents dom cfg (parentElement dom n)
  | .otherNode => false

/-- Parent-chain climb for `document.body.contains(node)`: true when the
node is the body or the chain reaches the body. -/
def containsUp (dom : Dom) : Nat → NId → Bool
  | 0, _ => false
  | fuel + 1, n =>
      if n = dom.bodyId then true
      else
        match (getNode dom n).parent with
        | some q => containsUp dom fuel q
        | none => false

/-- Whether `document.body.contains(node)` holds. -/
def bodyContains (dom : Dom) (n : NId) : Bool :=
  containsUp dom (fuelOf dom) n

/-- JavaScript whitespace characters stripped by `String.prototype.trim`
(the common ASCII ones and the no-break space). -/
def isJsWhitespace (c : Char) : Bool :=
  c = ' ' || c = '\t' || c = '\n' || c = '\r' ||
  c = '\x0b' || c = '\x0c' || c = '\u00A0'

/-- Length of `s.trim()`: the character count once leading and trailing
whitespace is dropped (kernel-computable embedding of the emptiness
check `nodeValue.trim().length == 0`). -/
def trimmedLength (s : String) : Nat :=
  ((s.data.dropWhile isJsWhitespace).reverse.dropWhile isJsWhitespace).length

/-- Uppercasing for `nodeName` (an HTML element reports the uppercase
form of its lowercase `localName`). -/
def upperString (s : String) : String :=
  String.mk (s.data.map Char.toUpper)

/-- The node's `nodeName` (uppercase tag for elements). -/
def nodeNameOf (dom : Dom) (n : NId) : String :=
  match (getNode dom n).kind with
  | .element tag => upperString tag
  | .attrNode name => name
  | .textNode => "#text"
  | .otherNode => "#node"

/-- Embedding of `NodesTranslator.isIntersectableNode`: not an `OPTION`
element, and contained under `document.body`. -/
def isIntersectableNode (dom : Dom) (n : NId) : Bool :=
  if nodeNameOf dom n = "OPTION" then false
  else bodyContains dom n

/-- Embedding of `NodesTranslator.getNodeScore`: attributes score 1
(plus 2 with a viewport-visible owner element), text nodes score 2
(plus 2 with a viewport-visible parent element), all other kinds 0. -/
def getNodeScore (dom : Dom) (n : NId) : Nat :=
  match (getNode dom n).kind with
  | .attrNode _ =>
      1 + (match (getNode dom n).owner with
           | some p => if isInViewport dom p then 2 else 0
           | none => 0)
  | .textNode =>
      2 + (match parentElement dom n with
           | some p => if isInViewport dom p then 2 else 0
           | none => 0)
  | _ => 0

/-- The nodes `NodesTranslator.handleTree` passes to its callback, in
visit order: the tree walker's document-order traversal of the light
tree, where each visited element first recurses into its shadow root's
children and then yields its attribute nodes. -/
def handleTreeList (dom : Dom) : Nat → NId → List NId
  | 0, _ => []
  | fuel + 1, n =>
      let nd := getNode dom n
      match nd.kind with
      | .element _ =>
          n :: (nd.shadowChildren.flatMap (handleTreeList dom fuel)
                ++ nd.attList
                ++ nd.children.flatMap (handleTreeList dom fuel))
      | _ => [n]

/-- Per-node record of the translator (`NodeData` in the source). -/
structure NodeData where
  id : Nat
  updateId : Nat
  translateContext : Nat
  originalText : String
  priority : Nat
deriving DecidableEq, Repr

/-- Mutable state of the translator: the `nodeValue` of every node that
has one (absent means null), the `nodeStorage` records, the id counter,
the intersection-observer registration set (`itersectStorage`) and the
observed roots (`observedNodesStorage`). -/
structure TrState where
  values : List (NId × String) := []
  nodeStorage : List (NId × NodeData) := []
  idCounter : Nat := 0
  itersectStorage : List NId := []
  observedNodes : List NId := []
deriving DecidableEq, Repr

/-- The node's current `nodeValue` (`none` models null). -/
def valueOf (st : TrState) (n : NId) : Option String :=
  lookupA st.values n

/-- The DOM `nodeValue` setter: a no-op on elements, otherwise the
value is replaced. -/
def setValue (dom : Dom) (vals : List (NId × String)) (n : NId) (s : String) :
    List (NId × String) :=
  if isElement dom n then vals else insertA vals n s

/-- An issued asynchronous translation: the captures `translateNode`
makes before calling the translate function (the node, `nodeId = id`,
`nodeContext = updateId`) together with the text and priority passed. -/
structure Request where
  node : NId
  nodeId : Nat
  nodeContext : Nat
  text : String
  priority : Nat
deriving DecidableEq, Repr

/-- Synchronous part of `NodesTranslator.translateNode`: throws when the
node has no record; returns no request when `nodeValue` is null or
`updateId <= translateContext` (recursion prevention); otherwise issues
a request capturing `id`, `updateId`, the current text and priority. -/
def translateNode (st : TrState) (n : NId) : Except String (Option Request) :=
  match lookupA st.nodeStorage n with
  | none => .error "Node is not register"
  | some nd =>
      match valueOf st n with
      | none => .ok none
      | some v =>
          if nd.updateId ≤ nd.translateContext then .ok none
          else .ok (some ⟨n, nd.id, nd.updateId, v, nd.priority⟩)

/-- The request `translateNode` issues, with the impossible unregistered
case collapsed to no request (used where the source has just inserted or
updated the record, so the throw cannot fire). -/
def translateNodeReq (st : TrState) (n : NId) : Option Request :=
  ((translateNode st n).toOption).getD none

/-- The fulfillment continuation of `NodesTranslator.translateNode`: the
live record is re-fetched; the result is dropped unless it still exists
with the captured `id` and the captured `updateId`; on a match the
pre-write content is snapshotted into `originalText`, `translateContext`
is set to `updateId + 1`, and the translated text is written into the
node. -/
def resolveTranslate (dom : Dom) (st : TrState) (req : Request)
    (translated : String) : TrState :=
  match lookupA st.nodeStorage req.node with
  | none => st
  | some nd =>
      if req.nodeId ≠ nd.id then st
      else if req.nodeContext ≠ nd.updateId then st
      else
        let orig := (valueOf st req.node).getD ""
        let nd' := { nd with
          originalText := orig, translateContext := nd.updateId + 1 }
        { st with
          nodeStorage := insertA st.nodeStorage req.node nd',
          values := setValue dom st.values req.node translated }

/-- Outcome of the external translate promise. -/
inductive Outcome where
  | fulfilled (text : String)
  | rejected (reason : String)
deriving DecidableEq, Repr

/-- Settling of an issued request: fulfillment runs the
`resolveTranslate` continuation; rejection runs no handler in
`translateNode` (the source attaches only `.then`), leaving the state
untouched and propagating the reason to the caller. -/
def settleTranslation (dom : Dom) (st : TrState) (req : Request)
    (o : Outcome) : TrState × Option String :=
  match o with
  | .fulfilled text => (resolveTranslate dom st req text, none)
  | .rejected reason => (st, some reason)

/-- Embedding of `NodesTranslator.handleNode`: a no-op when the node is
already stored, its value is null or whitespace-only, or it fails
`isTranslatableNode`; otherwise a fresh record (new id, `updateId = 1`,
`translateContext = 0`, empty original text, computed priority) is
stored and translation is attempted. -/
def handleNode (dom : Dom) (cfg : Config) (st : TrState) (n : NId) :
    TrState × Option Request :=
  if (lookupA st.nodeStorage n).isSome then (st, none)
  else
    match valueOf st n with
    | none => (st, none)
    | some v =>
        if trimmedLength v = 0 then (st, none)
        else if ¬ isTranslatableNode dom cfg n then (st, none)
        else
          let priority := getNodeScore dom n
          let st' := { st with
            nodeStorage := insertA st.nodeStorage n
              ⟨st.idCounter, 1, 0, "", priority⟩,
            idCounter := st.idCounter + 1 }
          (st', translateNodeReq st' n)

/-- Embedding of `NodesTranslator.updateNode`: a no-op for untracked
nodes; otherwise `updateId` is incremented and translation attempted. -/
def updateNode (st : TrState) (n : NId) : TrState × Option Request :=
  match lookupA st.nodeStorage n with
  | none => (st, none)
  | some nd =>
      let st' := { st with
        nodeStorage := insertA st.nodeStorage n
          { nd with updateId := nd.updateId + 1 } }
      (st', translateNodeReq st' n)

/-- Embedding of `handleElementByIntersectViewport`: registration with
the intersection observer, idempotent on the stored set. -/
def handleElementByIntersectViewport (st : TrState) (n : NId) : TrState :=
  if st.itersectStorage.contains n then st
  else { st with itersectStorage := n :: st.itersectStorage }

/-- The `observableNode` of the lazy branch of `addNode`: the owner
element for an attribute node, the parent element for anything else. -/
def observableNodeOf (dom : Dom) (n : NId) : Option NId :=
  match (getNode dom n).kind with
  | .attrNode _ => (getNode dom n).owner
  | _ => parentElement dom n

/-- The non-element branch of `NodesTranslator.addNode`: under lazy
mode, a node that is attached (`getRootNode() !== node`, i.e. it has a
parent) and whose observable element exists and is intersectable is
deferred by registering that element with the viewport gate; every
other node is handled immediately. -/
def addNodeLeaf (dom : Dom) (cfg : Config) (st : TrState) (n : NId) :
    TrState × Option Request :=
  if cfg.lazyTranslate then
    match observableNodeOf dom n with
    | some e =>
        if (getNode dom n).parent.isSome && isIntersectableNode dom e then
          (handleElementByIntersectViewport st e, none)
        else handleNode dom cfg st n
    | none => handleNode dom cfg st n
  else handleNode dom cfg st n

/-- Embedding of `NodesTranslator.addNode`: an element fans out over the
`handleTree` walk, re-entering `addNode` for each non-element node that
passes `isTranslatableNode`; a non-element node goes through the lazy
branch. The requests of all issued translations are collected. -/
def addNode (dom : Dom) (cfg : Config) (st : TrState) (n : NId) :
    TrState × List Request :=
  if isElement dom n then
    (handleTreeList dom (fuelOf dom) n).foldl
      (fun acc w =>
        if isElement dom w then acc
        else if isTranslatableNode dom cfg w then
          let r := addNodeLeaf dom cfg acc.1 w
          (r.1, acc.2 ++ r.2.toList)
        else acc)
      (st, [])
  else
    let r := addNodeLeaf dom cfg st n
    (r.1, r.2.toList)

/-- One step of `NodesTranslator.deleteNode` with `onlyTarget = true`:
an element is dropped from the intersection registration; a node with a
record has its content restored to `originalText` and the record
deleted. -/
def deleteNodeOnly (dom : Dom) (st : TrState) (n : NId) : TrState :=
  let st1 :=
    if isElement dom n then
      { st with itersectStorage := st.itersectStorage.erase n }
    else st
  match lookupA st1.nodeStorage n with
  | none => st1
  | some nd =>
      { st1 with
        values := setValue dom st1.values n nd.originalText,
        nodeStorage := eraseA st1.nodeStorage n }

/-- Embedding of `NodesTranslator.deleteNode` with `onlyTarget = false`:
an element first recursively deletes every node of the `handleTree`
walk, then runs its own target step; other nodes run the target step
directly. -/
def deleteNode (dom : Dom) (st : TrState) (n : NId) : TrState :=
  if isElement dom n then
    deleteNodeOnly dom
      ((handleTreeList dom (fuelOf dom) n).foldl (deleteNodeOnly dom) st) n
  else deleteNodeOnly dom st n

/-- One child step of `intersectNode`: elements and filter failures are
skipped, anything else goes through `handleNode`. -/
def intersectStep (dom : Dom) (cfg : Config) (acc : TrState × List Request)
    (c : NId) : TrState × List Request :=
  if isElement dom c || !(isTranslatableNode dom cfg c) then acc
  else
    let r := handleNode dom cfg acc.1 c
    (r.1, acc.2 ++ r.2.toList)

/-- Embedding of `NodesTranslator.intersectNode`: each direct child of
the newly visible element that is not itself an element and passes
`isTranslatableNode` goes through `handleNode`; inner nodes are left
alone. -/
def intersectNode (dom : Dom) (cfg : Config) (st : TrState) (e : NId) :
    TrState × List Request :=
  (getNode dom e).children.foldl (intersectStep dom cfg) (st, [])

/-- The intersection-observer callback for one entry: a registered
element that is intersecting is unregistered and fanned out through
`intersectNode`; anything else is ignored. -/
def onIntersectEvent (dom : Dom) (cfg : Config) (st : TrState) (e : NId)
    (isIntersecting : Bool) : TrState × List Request :=
  if st.itersectStorage.contains e && isIntersecting then
    intersectNode dom cfg
      { st with itersectStorage := st.itersectStorage.erase e } e
  else (st, [])

/-- Embedding of `NodesTranslator.getNodeData`, reduced to the
`originalText` field it returns: the stored original text when tracked,
null otherwise. It reads the state and returns nothing else. -/
def getNodeData (st : TrState) (n : NId) : Option String :=
  (lookupA st.nodeStorage n).map (fun nd => nd.originalText)

/-- Embedding of `NodesTranslator.observe`: throws when the root is
already observed; otherwise the watch is recorded and an `addNode` walk
bootstraps the existing content. -/
def observe (dom : Dom) (cfg : Config) (st : TrState) (n : NId) :
    Except String (TrState × List Request) :=
  if st.observedNodes.contains n then .error "Node already under observe"
  else
    .ok (addNode dom cfg { st with observedNodes := n :: st.observedNodes } n)

/-- Embedding of `NodesTranslator.unobserve`: throws when the root is
not observed; otherwise the root is deleted (restoring content) and the
watch discarded. -/
def unobserve (dom : Dom) (st : TrState) (n : NId) :
    Except String TrState :=
  if ¬ st.observedNodes.contains n then .error "Node is not under observe"
  else
    let st1 := deleteNode dom st n
    .ok { st1 with observedNodes := st1.observedNodes.erase n }

/-- Session state of `PageTranslator`: the epoch token
(`translateContext`, a `Symbol()` in the source, modelled as a natural
number drawn from the monotone `nextToken` supply), whether a page
translation is running (`pageTranslator !== null`) and the aggregate
counters of `translateState`. -/
structure PTState where
  translateContext : Nat := 0
  nextToken : Nat := 1
  running : Bool := false
  resolved : Nat := 0
  rejected : Nat := 0
  pending : Nat := 0
deriving DecidableEq, Repr

/-- Minting `Symbol()` into `this.translateContext`: a token never
produced before. -/
def ptMint (s : PTState) : PTState :=
  { s with translateContext := s.nextToken, nextToken := s.nextToken + 1 }

/-- Embedding of `PageTranslator.run`: throws when already running,
otherwise mints a fresh epoch token and starts the session. -/
def ptRun (s : PTState) : Except String PTState :=
  if s.running then .error "Page already translated"
  else .ok { ptMint s with running := true }

/-- Embedding of `PageTranslator.stop`: throws when not running,
otherwise stops the session, mints a fresh epoch token and resets the
counters. -/
def ptStop (s : PTState) : Except String PTState :=
  if s.running then
    .ok { ptMint s with running := false, resolved := 0, rejected := 0,
                        pending := 0 }
  else .error "Page is not translated"

/-- Synchronous prefix of the `translateText` closure created by `run`:
a call whose captured token no longer matches the live epoch throws
before issuing; otherwise the pending counter is incremented and the
external translate call goes out. -/
def ptIssue (s : PTState) (localCtx : Nat) : Except String PTState :=
  if localCtx ≠ s.translateContext then .error "Outdated context"
  else .ok { s with pending := s.pending + 1 }

/-- The `.then`/`.catch`/`.finally` chain of `translateText`: each
handler first checks that the captured token still equals the live
epoch; the resolved (or rejected) counter and then the pending counter
are touched only on a match, and the outcome itself (the translated
text, or the rethrown reason) passes through unchanged. -/
def settleSession (s : PTState) (localCtx : Nat) (o : Outcome) :
    PTState × Outcome :=
  let s1 :=
    match o with
    | .fulfilled _ =>
        if localCtx = s.translateContext then
          { s with resolved := s.resolved + 1 }
        else s
    | .rejected _ =>
        if localCtx = s.translateContext then
          { s with rejected := s.rejected + 1 }
        else s
  let s2 :=
    if localCtx = s1.translateContext then
      { s1 with pending := s1.pending - 1 }
    else s1
  (s2, o)

/-- Reachability between session states through any interleaving of the
session operations: starting, stopping, issuing a translation under a
captured token, and settling a translation outcome. -/
inductive PTReach : PTState → PTState → Prop where
  | refl (s : PTState) : PTReach s s
  | runStep {s t u : PTState} :
      ptRun s = .ok t → PTReach t u → PTReach s u
  | stopStep {s t u : PTState} :
      ptStop s = .ok t → PTReach t u → PTReach s u
  | issueStep {s t u : PTState} (ctx : Nat) :
      ptIssue s ctx = .ok t → PTReach t u → PTReach s u
  | settleStep {s u : PTState} (ctx : Nat) (o : Outcome) :
      PTReach (settleSession s ctx o).1 u → PTReach s u

theorem ptRun_ctx {s t : PTState} (h : ptRun s = .ok t) :
    t.translateContext = s.nextToken ∧ t.nextToken = s.nextToken + 1 := by
  unfold ptRun at h
  split at h
  · simp at h
  · rw [Except.ok.injEq] at h
    subst h
    simp [ptMint]

theorem ptStop_ctx {s t : PTState} (h : ptStop s = .ok t) :
    t.translateContext = s.nextToken ∧ t.nextToken = s.nextToken + 1 := by
  unfold ptStop at h
  split at h
  · rw [Except.ok.injEq] at h
    subst h
    simp [ptMint]
  · simp at h

theorem ptIssue_ctx {s t : PTState} {ctx : Nat} (h : ptIssue s ctx = .ok t) :
    t.translateContext = s.translateContext ∧ t.nextToken = s.nextToken := by
  unfold ptIssue at h
  split at h
  · simp at h
  · rw [Except.ok.injEq] at h
    subst h
    simp

theorem settleSession_ctx {s : PTState} (ctx : Nat) (o : Outcome) :
    (settleSession s ctx o).1.translateContext = s.translateContext ∧
    (settleSession s ctx o).1.nextToken = s.nextToken := by
  unfold settleSession
  cases o <;> dsimp only <;> split <;> simp

/-- Along any reachable future, a token below the live epoch stays
below it, and the epoch stays below the token supply. -/
theorem PTReach_token_lt {t u : PTState} (tok : Nat)
    (h : PTReach t u)
    (h1 : tok < t.translateContext)
    (h2 : t.translateContext < t.nextToken) :
    tok < u.translateContext ∧ u.translateContext < u.nextToken := by
  induction h with
  | refl s => exact ⟨h1, h2⟩
  | runStep hs _ ih =>
      obtain ⟨hc, hn⟩ := ptRun_ctx hs
      exact ih (by omega) (by omega)
  | stopStep hs _ ih =>
      obtain ⟨hc, hn⟩ := ptStop_ctx hs
      exact ih (by omega) (by omega)
  | issueStep ctx hs _ ih =>
      obtain ⟨hc, hn⟩ := ptIssue_ctx hs
      exact ih (by omega) (by omega)
  | settleStep ctx o _ ih =>
      apply ih
      · rw [(settleSession_ctx ctx o).1]
        exact h1
      · rw [(settleSession_ctx ctx o).1, (settleSession_ctx ctx o).2]
        exact h2

theorem resolveTranslate_applied (dom : Dom) {st : TrState} {req : Request}
    {nd : NodeData} (txt : String)
    (hnd : lookupA st.nodeStorage req.node = some nd)
    (hid : req.nodeId = nd.id) (hctx : req.nodeContext = nd.updateId) :
    resolveTranslate dom st req txt =
      { st with
        nodeStorage := insertA st.nodeStorage req.node
          { nd with originalText := (valueOf st req.node).getD "",
                    translateContext := nd.updateId + 1 },
        values := setValue dom st.values req.node txt } := by
  unfold resolveTranslate
  rw [hnd]
  simp [hid, hctx]

theorem translateNodeReq_eq {st : TrState} {n : NId} {nd : NodeData}
    {v : String}
    (hnd : lookupA st.nodeStorage n = some nd)
    (hv : valueOf st n = some v) :
    translateNodeReq st n =
      if nd.updateId ≤ nd.translateContext then none
      else some ⟨n, nd.id, nd.updateId, v, nd.priority⟩ := by
  unfold translateNodeReq translateNode
  rw [hnd, hv]
  by_cases h : nd.updateId ≤ nd.translateContext <;> simp [h, Except.toOption]

/-- The state `updateNode` leaves when the record is present. -/
def bumpedState (st : TrState) (n : NId) (nd : NodeData) : TrState :=
  { st with nodeStorage :=
      insertA st.nodeStorage n { nd with updateId := nd.updateId + 1 } }

theorem updateNode_fst {st : TrState} {n : NId} {nd : NodeData}
    (hnd : lookupA st.nodeStorage n = some nd) :
    (updateNode st n).1 = bumpedState st n nd := by
  unfold updateNode bumpedState
  rw [hnd]

theorem updateNode_snd {st : TrState} {n : NId} {nd : NodeData}
    (hnd : lookupA st.nodeStorage n = some nd) :
    (updateNode st n).2 = translateNodeReq (bumpedState st n nd) n := by
  unfold updateNode bumpedState
  rw [hnd]

theorem lookupA_bumpedState (st : TrState) (n : NId) (nd : NodeData) :
    lookupA (bumpedState st n nd).nodeStorage n =
      some { nd with updateId := nd.updateId + 1 } := by
  unfold bumpedState
  exact lookupA_insertA_self ..

theorem valueOf_bumpedState (st : TrState) (n m : NId) (nd : NodeData) :
    valueOf (bumpedState st n nd) m = valueOf st m := rfl

/-- C1: committing a translation captured at version `V = updateId` sets
`translateContext` to `V + 1` before the content write, so the single
self-induced `updateNode` bumps `updateId` to exactly `V + 1`, equal to
`translateContext`, and its translation attempt issues no request; a
genuine later edit bumps `updateId` to `V + 2 > translateContext` and
issues a request again. -/
theorem commit_absorbs_self_update
    (dom : Dom) (st : TrState) (n : NId) (nd : NodeData) (req : Request)
    (txt : String)
    (hel : isElement dom n = false)
    (hnd : lookupA st.nodeStorage n = some nd)
    (hn : req.node = n) (hid : req.nodeId = nd.id)
    (hctx : req.nodeContext = nd.updateId) :
    lookupA (resolveTranslate dom st req txt).nodeStorage n =
      some { nd with originalText := (valueOf st n).getD "",
                     translateContext := nd.updateId + 1 } ∧
    valueOf (resolveTranslate dom st req txt) n = some txt ∧
    (updateNode (resolveTranslate dom st req txt) n).2 = none ∧
    lookupA (updateNode (resolveTranslate dom st req txt) n).1.nodeStorage n =
      some { nd with originalText := (valueOf st n).getD "",
                     translateContext := nd.updateId + 1,
                     updateId := nd.updateId + 1 } ∧
    (updateNode (updateNode (resolveTranslate dom st req txt) n).1 n).2 =
      some ⟨n, nd.id, nd.updateId + 1 + 1, txt, nd.priority⟩ := by
  subst hn
  have happ := resolveTranslate_applied dom txt hnd hid hctx
  have hstore1 :
      lookupA (resolveTranslate dom st req txt).nodeStorage req.node =
        some { nd with originalText := (valueOf st req.node).getD "",
                       translateContext := nd.updateId + 1 } := by
    rw [happ]
    exact lookupA_insertA_self ..
  have hval1 : valueOf (resolveTranslate dom st req txt) req.node = some txt := by
    rw [happ]
    simp only [valueOf, setValue, hel]
    simp [lookupA_insertA_self]
  refine ⟨hstore1, hval1, ?_⟩
  have hstore2 :
      lookupA (updateNode (resolveTranslate dom st req txt) req.node).1.nodeStorage
          req.node =
        some { nd with originalText := (valueOf st req.node).getD "",
                       translateContext := nd.updateId + 1,
                       updateId := nd.updateId + 1 } := by
    rw [updateNode_fst hstore1, lookupA_bumpedState]
  have hval2 :
      valueOf (updateNode (resolveTranslate dom st req txt) req.node).1 req.node =
        some txt := by
    rw [updateNode_fst hstore1, valueOf_bumpedState]
    exact hval1
  have hreq2 : (updateNode (resolveTranslate dom st req txt) req.node).2 = none := by
    rw [updateNode_snd hstore1,
      translateNodeReq_eq (lookupA_bumpedState ..)
        ((valueOf_bumpedState ..).trans hval1)]
    simp
  refine ⟨hreq2, hstore2, ?_⟩
  rw [updateNode_snd hstore2,
    translateNodeReq_eq (lookupA_bumpedState ..)
      ((valueOf_bumpedState ..).trans hval2)]
  simp

/-- Concrete environment for the C1 witness: one tracked text node. -/
def exDom1 : Dom := { nodes := [(1, { kind := .textNode })], bodyId := 0 }

/-- Concrete translator state for the C1 witness. -/
def exSt1 : TrState :=
  { values := [(1, "Hello")], nodeStorage := [(1, ⟨0, 1, 0, "", 2⟩)],
    idCounter := 1 }

theorem commit_absorbs_self_update_witness :
    (updateNode (resolveTranslate exDom1 exSt1 ⟨1, 0, 1, "Hello", 2⟩ "Bonjour") 1).2 =
      none ∧
    (updateNode
        (updateNode (resolveTranslate exDom1 exSt1 ⟨1, 0, 1, "Hello", 2⟩ "Bonjour") 1).1
        1).2 =
      some ⟨1, 0, 3, "Bonjour", 2⟩ := by
  have h := commit_absorbs_self_update exDom1 exSt1 1 ⟨0, 1, 0, "", 2⟩
    ⟨1, 0, 1, "Hello", 2⟩ "Bonjour" (by decide) (by decide) rfl rfl rfl
  exact ⟨h.2.2.1, h.2.2.2.2⟩

/-- Whether the live record still matches the identity and version a
request captured: a record exists for the node, with the captured `id`
and the captured `updateId`. -/
def matchesLive (st : TrState) (req : Request) : Prop :=
  ∃ nd, lookupA st.nodeStorage req.node = some nd ∧
    nd.id = req.nodeId ∧ nd.updateId = req.nodeContext

/-- C2: a resolving translation is applied exactly when the live record
still exists with the captured identity and version; in every other
case the state (content and records) is returned unchanged. -/
theorem stale_result_discarded (dom : Dom) (st : TrState) (req : Request)
    (txt : String) :
    (¬ matchesLive st req → resolveTranslate dom st req txt = st) ∧
    (∀ nd, lookupA st.nodeStorage req.node = some nd →
      nd.id = req.nodeId → nd.updateId = req.nodeContext →
      resolveTranslate dom st req txt =
        { st with
          nodeStorage := insertA st.nodeStorage req.node
            { nd with originalText := (valueOf st req.node).getD "",
                      translateContext := nd.updateId + 1 },
          values := setValue dom st.values req.node txt }) := by
  constructor
  · intro hmiss
    unfold resolveTranslate
    cases hl : lookupA st.nodeStorage req.node with
    | none => rfl
    | some nd =>
        by_cases hid : req.nodeId = nd.id
        · by_cases hctx : req.nodeContext = nd.updateId
          · exact absurd ⟨nd, hl, hid.symm, hctx.symm⟩ hmiss
          · simp [hid, hctx]
        · simp [hid]
  · intro nd hl hid hctx
    exact resolveTranslate_applied dom txt hl hid.symm hctx.symm

theorem stale_result_discarded_witness :
    resolveTranslate exDom1
        { exSt1 with nodeStorage := [(1, ⟨0, 2, 0, "", 2⟩)] }
        ⟨1, 0, 1, "Hello", 2⟩ "Bonjour" =
      { exSt1 with nodeStorage := [(1, ⟨0, 2, 0, "", 2⟩)] } :=
  (stale_result_discarded exDom1
      { exSt1 with nodeStorage := [(1, ⟨0, 2, 0, "", 2⟩)] }
      ⟨1, 0, 1, "Hello", 2⟩ "Bonjour").1
    (by
      intro hm
      obtain ⟨nd, h1, h2, h3⟩ := hm
      simp [lookupA] at h1
      rw [← h1] at h3
      simp at h3)

/-- C3: `getNodeData` returns the stored `originalText` for a tracked
unit and null for an untracked one, reading nothing else; the
`originalText` a commit stores is the content the unit had before the
translated text was written, so the content restored on removal and the
string served to lookups equal the pre-translation content. -/
theorem original_text_round_trip (dom : Dom) (st : TrState) (n : NId)
    (nd : NodeData) (req : Request) (txt v : String)
    (hel : isElement dom n = false)
    (hnd : lookupA st.nodeStorage n = some nd)
    (hn : req.node = n) (hid : req.nodeId = nd.id)
    (hctx : req.nodeContext = nd.updateId)
    (hv : valueOf st n = some v) :
    (∀ st' : TrState, ∀ m : NId, lookupA st'.nodeStorage m = none →
      getNodeData st' m = none) ∧
    (∀ st' : TrState, ∀ m : NId, ∀ nd' : NodeData,
      lookupA st'.nodeStorage m = some nd' →
      getNodeData st' m = some nd'.originalText) ∧
    getNodeData (resolveTranslate dom st req txt) n = some v ∧
    valueOf (deleteNodeOnly dom (resolveTranslate dom st req txt) n) n = some v ∧
    lookupA (deleteNodeOnly dom (resolveTranslate dom st req txt) n).nodeStorage
        n = none := by
  subst hn
  have hv' : lookupA st.values req.node = some v := hv
  refine ⟨?_, ?_, ?_, ?_, ?_⟩
  · intro st' m hm
    simp [getNodeData, hm]
  · intro st' m nd' hm
    simp [getNodeData, hm]
  · rw [resolveTranslate_applied dom txt hnd hid hctx]
    simp [getNodeData, valueOf, lookupA_insertA_self, hv']
  · rw [resolveTranslate_applied dom txt hnd hid hctx]
    unfold deleteNodeOnly
    simp only [hel, Bool.false_eq_true, if_false, lookupA_insertA_self]
    simp [valueOf, setValue, hel, lookupA_insertA_self, hv']
  · rw [resolveTranslate_applied dom txt hnd hid hctx]
    unfold deleteNodeOnly
    simp only [hel, Bool.false_eq_true, if_false, lookupA_insertA_self]
    simp [lookupA_eraseA_self]

theorem original_text_round_trip_witness :
    getNodeData (resolveTranslate exDom1 exSt1 ⟨1, 0, 1, "Hello", 2⟩ "Bonjour") 1 =
      some "Hello" ∧
    valueOf
        (deleteNodeOnly exDom1
          (resolveTranslate exDom1 exSt1 ⟨1, 0, 1, "Hello", 2⟩ "Bonjour") 1) 1 =
      some "Hello" := by
  have h := original_text_round_trip exDom1 exSt1 1 ⟨0, 1, 0, "", 2⟩
    ⟨1, 0, 1, "Hello", 2⟩ "Bonjour" "Hello" (by decide) (by decide) rfl rfl rfl
    (by decide)
  exact ⟨h.2.2.1, h.2.2.2.1⟩

/-- C6: ingesting a unit is a no-op (state returned unchanged, no
request issued) when it is already tracked, its content is null or
whitespace-only, or it fails the reachability filter; otherwise a fresh
record `(id = idCounter, updateId = 1, translateContext = 0, priority =
getNodeScore)` is registered, the counter advances, and a translation
request for the current content is issued at once; with lazy mode off,
`addNode` on a non-element unit is exactly this registration step. -/
theorem handleNode_semantics (dom : Dom) (cfg : Config) (st : TrState) (n : NId) :
    ((lookupA st.nodeStorage n).isSome = true →
      handleNode dom cfg st n = (st, none)) ∧
    (valueOf st n = none → handleNode dom cfg st n = (st, none)) ∧
    (∀ v, valueOf st n = some v → trimmedLength v = 0 →
      handleNode dom cfg st n = (st, none)) ∧
    (isTranslatableNode dom cfg n = false →
      handleNode dom cfg st n = (st, none)) ∧
    (∀ v, lookupA st.nodeStorage n = none → valueOf st n = some v →
      trimmedLength v ≠ 0 → isTranslatableNode dom cfg n = true →
      handleNode dom cfg st n =
        ({ st with
            nodeStorage := insertA st.nodeStorage n
              ⟨st.idCounter, 1, 0, "", getNodeScore dom n⟩,
            idCounter := st.idCounter + 1 },
         some ⟨n, st.idCounter, 1, v, getNodeScore dom n⟩)) ∧
    (isElement dom n = false → cfg.lazyTranslate = false →
      addNode dom cfg st n =
        ((handleNode dom cfg st n).1, (handleNode dom cfg st n).2.toList)) := by
  refine ⟨?_, ?_, ?_, ?_, ?_, ?_⟩
  · intro h
    unfold handleNode
    simp [h]
  · intro h
    unfold handleNode
    by_cases htr : (lookupA st.nodeStorage n).isSome <;> simp [htr, h]
  · intro v hv htrim
    unfold handleNode
    by_cases htr : (lookupA st.nodeStorage n).isSome <;> simp [htr, hv, htrim]
  · intro hnt
    unfold handleNode
    by_cases htr : (lookupA st.nodeStorage n).isSome
    · simp [htr]
    · cases hv : valueOf st n with
      | none => simp [htr, hv]
      | some v =>
          by_cases htrim : trimmedLength v = 0 <;> simp [htr, hv, htrim, hnt]
  · intro v h0 hv htrim htl
    have h0' : (lookupA st.nodeStorage n).isSome = false := by simp [h0]
    have hv2 : valueOf { st with
        nodeStorage := insertA st.nodeStorage n
          ⟨st.idCounter, 1, 0, "", getNodeScore dom n⟩,
        idCounter := st.idCounter + 1 } n = some v := hv
    unfold handleNode
    rw [h0']
    simp only [Bool.false_eq_true, if_false, hv, htrim, htl]
    rw [translateNodeReq_eq (lookupA_insertA_self ..) hv2]
    simp [htrim]
  · intro hel hlazy
    unfold addNode addNodeLeaf
    simp [hel, hlazy]

/-- C6 witness environment: an untracked text node with content and an
empty filter configuration. -/
def exDom6 : Dom :=
  { nodes := [(1, { kind := .textNode, parent := some 2 }),
              (2, { kind := .element "div", children := [1] })],
    bodyId := 0 }

theorem handleNode_semantics_witness :
    handleNode exDom6 { lazyTranslate := false } { values := [(1, "Hi")] } 1 =
      ({ values := [(1, "Hi")],
         nodeStorage := insertA [] 1 ⟨0, 1, 0, "", getNodeScore exDom6 1⟩,
         idCounter := 1 },
       some ⟨1, 0, 1, "Hi", getNodeScore exDom6 1⟩) :=
  (handleNode_semantics exDom6 { lazyTranslate := false }
      { values := [(1, "Hi")] } 1).2.2.2.2.1 "Hi" rfl rfl (by decide) (by decide)

/-- The strict ancestors of a node along `parentNode`, nearest first. -/
def ancestorChain (dom : Dom) : Nat → NId → List NId
  | 0, _ => []
  | fuel + 1, n =>
      match (getNode dom n).parent with
      | none => []
      | some q => q :: ancestorChain dom fuel q

theorem climbParent_isSome (dom : Dom) (p : NId → Bool) :
    ∀ fuel n, (climbParent dom p fuel n).isSome = true ↔
      ∃ a ∈ ancestorChain dom fuel n, p a = true := by
  intro fuel
  induction fuel with
  | zero =>
      intro n
      simp [climbParent, ancestorChain]
  | succ f ih =>
      intro n
      unfold climbParent ancestorChain
      cases hq : (getNode dom n).parent with
      | none => simp
      | some q =>
          by_cases hp : p q = true
          · simp only [hp, if_true]
            apply iff_of_true
            · rfl
            · exact ⟨q, List.mem_cons_self .., hp⟩
          · have hp' : p q = false := by simpa using hp
            simp only [hp', Bool.false_eq_true, if_false]
            rw [ih q]
            constructor
            · rintro ⟨a, ha, hpa⟩
              exact ⟨a, List.mem_cons_of_mem _ ha, hpa⟩
            · rintro ⟨a, ha, hpa⟩
              rcases List.mem_cons.mp ha with h | h
              · subst h
                rw [hp'] at hpa
                exact absurd hpa (by simp)
              · exact ⟨a, h, hpa⟩

theorem searchParent_isSome (dom : Dom) (p : NId → Bool) (n : NId) :
    (searchParent dom p true n).isSome = true ↔
      ∃ a ∈ n :: ancestorChain dom (fuelOf dom) n, p a = true := by
  unfold searchParent
  by_cases hp : p n = true
  · simp only [hp, Bool.and_true, if_true]
    apply iff_of_true
    · rfl
    · exact ⟨n, List.mem_cons_self .., hp⟩
  · have hp' : p n = false := by simpa using hp
    simp only [hp', Bool.and_false, Bool.false_eq_true, if_false]
    rw [climbParent_isSome]
    constructor
    · rintro ⟨a, ha, hpa⟩
      exact ⟨a, List.mem_cons_of_mem _ ha, hpa⟩
    · rintro ⟨a, ha, hpa⟩
      rcases List.mem_cons.mp ha with h | h
      · subst h
        rw [hp'] at hpa
        exact absurd hpa (by simp)
      · exact ⟨a, h, hpa⟩

/-- Spec-worded reading of the ancestor exclusion (for comparison with
the code's `searchParent`-based walk): once the unit is resolved to an
associated element, neither that element nor any of its ancestors is an
element whose tag is in the ignore set; a unit with no associated
element passes vacuously. -/
def noIgnoredUpward (dom : Dom) (cfg : Config) : Option NId → Prop
  | none => True
  | some e => ∀ a ∈ e :: ancestorChain dom (fuelOf dom) e,
      ¬(isElement dom a = true ∧ cfg.ignoredTags.contains (tagOf dom a) = true)

theorem checkParents_iff (dom : Dom) (cfg : Config) (o : Option NId) :
    checkParents dom cfg o = true ↔ noIgnoredUpward dom cfg o := by
  cases o with
  | none => simp [checkParents, noIgnoredUpward]
  | some e =>
      unfold checkParents noIgnoredUpward
      have hs := searchParent_isSome dom (ignoredPred dom cfg.ignoredTags) e
      constructor
      · intro h a ha hcond
        rw [Option.isNone_iff_eq_none] at h
        have htrue : (searchParent dom (ignoredPred dom cfg.ignoredTags) true
            e).isSome = true := by
          rw [hs]
          refine ⟨a, ha, ?_⟩
          unfold ignoredPred
          rw [hcond.1, hcond.2]
          rfl
        rw [h] at htrue
        simp at htrue
      · intro h
        rw [Option.isNone_iff_eq_none]
        cases hx : searchParent dom (ignoredPred dom cfg.ignoredTags) true e with
        | none => rfl
        | some a =>
            have htrue : (searchParent dom (ignoredPred dom cfg.ignoredTags)
                true e).isSome = true := by
              rw [hx]
              rfl
            rw [hs] at htrue
            obtain ⟨b, hb, hpb⟩ := htrue
            unfold ignoredPred at hpb
            rw [Bool.and_eq_true] at hpb
            exact absurd ⟨hpb.1, hpb.2⟩ (h b hb)

/-- C7: the eligibility predicate holds exactly as the spec describes:
an element must not carry an ignored tag and must pass the inclusive
ancestor walk; an attribute must be in the allow set and its owner
element (when present) must pass the walk; a text unit is judged by its
parent element (when present); every other node kind is ineligible, and
absent any exclusion the unit is eligible. The predicate reads the
document and configuration only. -/
theorem eligibility_characterization (dom : Dom) (cfg : Config) (n : NId) :
    isTranslatableNode dom cfg n = true ↔
      ((∃ tag, (getNode dom n).kind = .element tag ∧
          cfg.ignoredTags.contains tag = false ∧
          noIgnoredUpward dom cfg (some n)) ∨
       (∃ name, (getNode dom n).kind = .attrNode name ∧
          cfg.translatableAttributes.contains name = true ∧
          noIgnoredUpward dom cfg (getNode dom n).owner) ∨
       ((getNode dom n).kind = .textNode ∧
          noIgnoredUpward dom cfg (parentElement dom n))) := by
  unfold isTranslatableNode
  cases hk : (getNode dom n).kind with
  | element tag =>
      by_cases hig : cfg.ignoredTags.contains tag = true
      · simp only [hig, if_true]
        apply iff_of_false
        · simp
        · rintro (⟨tag2, htag2, hc2, _⟩ | ⟨name2, hname2, _, _⟩ | ⟨ht, _⟩)
          · rw [NodeKind.element.injEq] at htag2
            subst htag2
            rw [hig] at hc2
            simp at hc2
          · simp at hname2
          · simp at ht
      · have hig' : cfg.ignoredTags.contains tag = false := by simpa using hig
        simp only [hig', Bool.false_eq_true, if_false]
        rw [checkParents_iff]
        constructor
        · intro h
          exact Or.inl ⟨tag, rfl, hig', h⟩
        · rintro (⟨tag2, htag2, _, h⟩ | ⟨name2, hname2, _, _⟩ | ⟨ht, _⟩)
          · exact h
          · simp at hname2
          · simp at ht
  | attrNode name =>
      dsimp only
      by_cases hal : cfg.translatableAttributes.contains name = true
      · rw [if_neg (not_not_intro hal), checkParents_iff]
        constructor
        · intro h
          exact Or.inr (Or.inl ⟨name, rfl, hal, h⟩)
        · rintro (⟨tag2, htag2, _, _⟩ | ⟨name2, hname2, _, h⟩ | ⟨ht, _⟩)
          · simp at htag2
          · rw [NodeKind.attrNode.injEq] at hname2
            subst hname2
            exact h
          · simp at ht
      · rw [if_pos hal]
        apply iff_of_false
        · simp
        · rintro (⟨tag2, htag2, _, _⟩ | ⟨name2, hname2, hc2, _⟩ | ⟨ht, _⟩)
          · simp at htag2
          · rw [NodeKind.attrNode.injEq] at hname2
            subst hname2
            exact hal hc2
          · simp at ht
  | textNode =>
      dsimp only
      rw [checkParents_iff]
      constructor
      · intro h
        exact Or.inr (Or.inr ⟨rfl, h⟩)
      · rintro (⟨tag2, htag2, _, _⟩ | ⟨name2, hname2, _, _⟩ | ⟨_, h⟩)
        · simp at htag2
        · simp at hname2
        · exact h
  | otherNode =>
      apply iff_of_false
      · simp
      · rintro (⟨tag2, htag2, _, _⟩ | ⟨name2, hname2, _, _⟩ | ⟨ht, _⟩)
        · simp at htag2
        · simp at hname2
        · simp at ht

theorem translateNodeReq_node {st : TrState} {n : NId} {r : Request}
    (h : translateNodeReq st n = some r) : r.node = n := by
  unfold translateNodeReq translateNode at h
  split at h
  · simp [Except.toOption] at h
  · split at h
    · simp [Except.toOption] at h
    · split at h
      · simp [Except.toOption] at h
      · simp [Except.toOption] at h
        subst h
        rfl

theorem handleNode_req_node {dom : Dom} {cfg : Config} {st : TrState} {n : NId}
    {r : Request} (h : (handleNode dom cfg st n).2 = some r) : r.node = n := by
  unfold handleNode at h
  split at h
  · simp at h
  · split at h
    · simp at h
    · split at h
      · simp at h
      · split at h
        · simp at h
        · exact translateNodeReq_node h

theorem intersect_fold_sound (dom : Dom) (cfg : Config) :
    ∀ (cs : List NId) (acc : TrState × List Request) (r : Request),
      r ∈ (cs.foldl (intersectStep dom cfg) acc).2 →
      r ∈ acc.2 ∨ ∃ c ∈ cs, isElement dom c = false ∧
        isTranslatableNode dom cfg c = true ∧ r.node = c := by
  intro cs
  induction cs with
  | nil =>
      intro acc r h
      exact Or.inl h
  | cons c rest ih =>
      intro acc r h
      rw [List.foldl_cons] at h
      rcases ih _ r h with hacc | ⟨c2, hc2, he2, ht2, hn2⟩
      · unfold intersectStep at hacc
        split at hacc
        · exact Or.inl hacc
        · rename_i hcond
          have hx : (isElement dom c || !(isTranslatableNode dom cfg c)) = false := by
            simpa using hcond
          rw [Bool.or_eq_false_iff] at hx
          have he : isElement dom c = false := hx.1
          have ht : isTranslatableNode dom cfg c = true := by
            simpa using hx.2
          rcases List.mem_append.mp hacc with hin | hin
          · exact Or.inl hin
          · cases ho : (handleNode dom cfg acc.1 c).2 with
            | none => rw [ho] at hin; simp [Option.toList] at hin
            | some req2 =>
                rw [ho] at hin
                simp [Option.toList] at hin
                subst hin
                exact Or.inr ⟨c, List.mem_cons_self .., he, ht,
                  handleNode_req_node ho⟩
      · exact Or.inr ⟨c2, List.mem_cons_of_mem _ hc2, he2, ht2, hn2⟩

/-- C4: with lazy mode on, adding a non-element unit defers exactly when
the unit is attached (it has a parent) and its observable element (the
attribute's owner element, else the parent element) exists and passes
the intersectable check (not an `OPTION` element and under
`document.body`): deferring registers that element with the viewport
gate and issues nothing; a unit with no observable element, a detached
unit, or a unit whose observable element fails the check is handled
immediately; and when a registered element becomes visible, every
request issued by the fan-out is for a direct child of that element
that is not an element and passes the eligibility filter. -/
theorem lazy_gating (dom : Dom) (cfg : Config) (st : TrState) (n e : NId)
    (hlazy : cfg.lazyTranslate = true)
    (hnel : isElement dom n = false) :
    ((getNode dom n).parent.isSome = true → observableNodeOf dom n = some e →
      isIntersectableNode dom e = true →
      addNode dom cfg st n = (handleElementByIntersectViewport st e, [])) ∧
    (observableNodeOf dom n = none →
      addNode dom cfg st n =
        ((handleNode dom cfg st n).1, (handleNode dom cfg st n).2.toList)) ∧
    ((getNode dom n).parent.isSome = false →
      addNode dom cfg st n =
        ((handleNode dom cfg st n).1, (handleNode dom cfg st n).2.toList)) ∧
    (observableNodeOf dom n = some e → isIntersectableNode dom e = false →
      addNode dom cfg st n =
        ((handleNode dom cfg st n).1, (handleNode dom cfg st n).2.toList)) ∧
    (∀ r ∈ (intersectNode dom cfg st e).2,
      r.node ∈ (getNode dom e).children ∧ isElement dom r.node = false ∧
        isTranslatableNode dom cfg r.node = true) := by
  refine ⟨?_, ?_, ?_, ?_, ?_⟩
  · intro hp hobs hint
    unfold addNode addNodeLeaf
    simp only [hnel, Bool.false_eq_true, if_false, hlazy, if_true, hobs, hp,
      hint, Bool.and_self]
    rfl
  · intro hobs
    unfold addNode addNodeLeaf
    simp only [hnel, Bool.false_eq_true, if_false, hlazy, if_true, hobs]
  · intro hp
    unfold addNode addNodeLeaf
    simp only [hnel, Bool.false_eq_true, if_false, hlazy, if_true]
    cases hobs : observableNodeOf dom n with
    | none => rfl
    | some e2 =>
        simp [hp]
  · intro hobs hint
    unfold addNode addNodeLeaf
    simp only [hnel, Bool.false_eq_true, if_false, hlazy, if_true, hobs,
      hint, Bool.and_false]
  · intro r hr
    unfold intersectNode at hr
    rcases intersect_fold_sound dom cfg _ _ r hr with h | ⟨c, hc, he, ht, hn⟩
    · simp at h
    · rw [hn]
      exact ⟨hc, he, ht⟩

/-- C4 witness environment: body `0` containing a `div` element `2`
with a text child `3`. -/
def exDom4 : Dom :=
  { nodes := [(0, { kind := .element "body" }),
              (2, { kind := .element "div", parent := some 0, children := [3] }),
              (3, { kind := .textNode, parent := some 2 })],
    bodyId := 0 }

/-- C4 witness state: node `3` carries the text "Hi". -/
def exSt4 : TrState := { values := [(3, "Hi")] }

theorem lazy_gating_witness :
    addNode exDom4 {} exSt4 3 = (handleElementByIntersectViewport exSt4 2, []) :=
  (lazy_gating exDom4 {} exSt4 3 2 rfl (by decide)).1 (by decide) (by decide)
    (by decide)

theorem deleteNodeOnly_idCounter (dom : Dom) (st : TrState) (m : NId) :
    (deleteNodeOnly dom st m).idCounter = st.idCounter := by
  unfold deleteNodeOnly
  by_cases hel : isElement dom m = true
  · simp only [hel, if_true]
    cases hl : lookupA st.nodeStorage m <;> simp [hl]
  · have h2 : isElement dom m = false := by simpa using hel
    simp only [h2, Bool.false_eq_true, if_false]
    cases hl : lookupA st.nodeStorage m <;> simp [hl]

theorem deleteNodeOnly_storage_sub (dom : Dom) (st : TrState) (m k : NId)
    (nd2 : NodeData)
    (h : lookupA (deleteNodeOnly dom st m).nodeStorage k = some nd2) :
    lookupA st.nodeStorage k = some nd2 := by
  unfold deleteNodeOnly at h
  by_cases hel : isElement dom m = true
  · simp only [hel, if_true] at h
    cases hl : lookupA st.nodeStorage m <;> rw [hl] at h <;> simp at h
    · exact h
    · by_cases hk : k = m
      · subst hk
        rw [lookupA_eraseA_self] at h
        cases h
      · rw [lookupA_eraseA_ne _ _ _ hk] at h
        exact h
  · have h2 : isElement dom m = false := by simpa using hel
    simp only [h2, Bool.false_eq_true, if_false] at h
    cases hl : lookupA st.nodeStorage m <;> rw [hl] at h <;> simp at h
    · exact h
    · by_cases hk : k = m
      · subst hk
        rw [lookupA_eraseA_self] at h
        cases h
      · rw [lookupA_eraseA_ne _ _ _ hk] at h
        exact h

theorem deleteNodeOnly_ne (dom : Dom) (st : TrState) (m k : NId) (hk : k ≠ m) :
    lookupA (deleteNodeOnly dom st m).nodeStorage k = lookupA st.nodeStorage k ∧
    valueOf (deleteNodeOnly dom st m) k = valueOf st k := by
  unfold deleteNodeOnly
  by_cases hel : isElement dom m = true
  · simp only [hel, if_true]
    cases hl : lookupA st.nodeStorage m <;>
      simp [hl, valueOf, setValue, hel, lookupA_eraseA_ne _ _ _ hk,
        lookupA_insertA_ne _ _ _ _ hk]
  · have h2 : isElement dom m = false := by simpa using hel
    simp only [h2, Bool.false_eq_true, if_false]
    cases hl : lookupA st.nodeStorage m <;>
      simp [hl, valueOf, setValue, h2, lookupA_eraseA_ne _ _ _ hk,
        lookupA_insertA_ne _ _ _ _ hk]

theorem deleteNodeOnly_storage_self (dom : Dom) (st : TrState) (m : NId) :
    lookupA (deleteNodeOnly dom st m).nodeStorage m = none := by
  unfold deleteNodeOnly
  by_cases hel : isElement dom m = true
  · simp only [hel, if_true]
    cases hl : lookupA st.nodeStorage m <;> simp [hl, lookupA_eraseA_self]
  · have h2 : isElement dom m = false := by simpa using hel
    simp only [h2, Bool.false_eq_true, if_false]
    cases hl : lookupA st.nodeStorage m <;> simp [hl, lookupA_eraseA_self]

theorem deleteNodeOnly_value_self (dom : Dom) (st : TrState) (m : NId)
    (nd : NodeData) (hnel : isElement dom m = false)
    (hnd : lookupA st.nodeStorage m = some nd) :
    valueOf (deleteNodeOnly dom st m) m = some nd.originalText := by
  unfold deleteNodeOnly
  simp only [hnel, Bool.false_eq_true, if_false, hnd]
  simp [valueOf, setValue, hnel, lookupA_insertA_self]

theorem deleteNodeOnly_nochange (dom : Dom) (st : TrState) (m : NId)
    (h : lookupA st.nodeStorage m = none) :
    (deleteNodeOnly dom st m).values = st.values ∧
    (deleteNodeOnly dom st m).nodeStorage = st.nodeStorage := by
  unfold deleteNodeOnly
  by_cases hel : isElement dom m = true
  · simp [hel, h]
  · have h2 : isElement dom m = false := by simpa using hel
    simp [h2, h]

theorem deleteNodeOnly_itersect_mem (dom : Dom) (st : TrState) (m x : NId)
    (h : x ∉ st.itersectStorage) :
    x ∉ (deleteNodeOnly dom st m).itersectStorage := by
  unfold deleteNodeOnly
  by_cases hel : isElement dom m = true
  · simp only [hel, if_true]
    cases hl : lookupA st.nodeStorage m <;> simp [hl] <;>
      exact fun hx => h (List.mem_of_mem_erase hx)
  · have h2 : isElement dom m = false := by simpa using hel
    simp only [h2, Bool.false_eq_true, if_false]
    cases hl : lookupA st.nodeStorage m <;> simp [hl] <;> exact h

theorem deleteNodeOnly_itersect_self (dom : Dom) (st : TrState) (m : NId)
    (hel : isElement dom m = true) (hic : st.itersectStorage.Nodup) :
    m ∉ (deleteNodeOnly dom st m).itersectStorage := by
  unfold deleteNodeOnly
  simp only [hel, if_true]
  cases hl : lookupA st.nodeStorage m <;> simp [hl] <;>
    exact fun hx => absurd rfl ((List.Nodup.mem_erase_iff hic).mp hx).1

theorem foldDelete_idCounter (dom : Dom) :
    ∀ (l : List NId) (st : TrState),
      (l.foldl (deleteNodeOnly dom) st).idCounter = st.idCounter := by
  intro l
  induction l with
  | nil => intro st; rfl
  | cons m rest ih =>
      intro st
      rw [List.foldl_cons, ih, deleteNodeOnly_idCounter]

theorem foldDelete_storage_sub (dom : Dom) :
    ∀ (l : List NId) (st : TrState) (k : NId) (nd2 : NodeData),
      lookupA (l.foldl (deleteNodeOnly dom) st).nodeStorage k = some nd2 →
      lookupA st.nodeStorage k = some nd2 := by
  intro l
  induction l with
  | nil => intro st k nd2 h; exact h
  | cons m rest ih =>
      intro st k nd2 h
      rw [List.foldl_cons] at h
      exact deleteNodeOnly_storage_sub dom st m k nd2 (ih _ k nd2 h)

theorem foldDelete_preserve_none (dom : Dom) :
    ∀ (l : List NId) (st : TrState) (k : NId),
      lookupA st.nodeStorage k = none →
      lookupA (l.foldl (deleteNodeOnly dom) st).nodeStorage k = none ∧
      valueOf (l.foldl (deleteNodeOnly dom) st) k = valueOf st k := by
  intro l
  induction l with
  | nil => intro st k h; exact ⟨h, rfl⟩
  | cons m rest ih =>
      intro st k h
      rw [List.foldl_cons]
      by_cases hk : k = m
      · subst hk
        obtain ⟨hv, hstor⟩ := deleteNodeOnly_nochange dom st k h
        have h2 : lookupA (deleteNodeOnly dom st k).nodeStorage k = none := by
          rw [hstor]; exact h
        obtain ⟨ha, hb⟩ := ih (deleteNodeOnly dom st k) k h2
        refine ⟨ha, ?_⟩
        rw [hb]
        unfold valueOf
        rw [hv]
      · obtain ⟨hstor, hval⟩ := deleteNodeOnly_ne dom st m k hk
        have h2 : lookupA (deleteNodeOnly dom st m).nodeStorage k = none := by
          rw [hstor]; exact h
        obtain ⟨ha, hb⟩ := ih (deleteNodeOnly dom st m) k h2
        exact ⟨ha, by rw [hb, hval]⟩

theorem foldDelete_restores (dom : Dom) :
    ∀ (l : List NId) (st : TrState) (k : NId) (nd : NodeData),
      k ∈ l → isElement dom k = false →
      lookupA st.nodeStorage k = some nd →
      valueOf (l.foldl (deleteNodeOnly dom) st) k = some nd.originalText ∧
      lookupA (l.foldl (deleteNodeOnly dom) st).nodeStorage k = none := by
  intro l
  induction l with
  | nil => intro st k nd hmem; cases hmem
  | cons m rest ih =>
      intro st k nd hmem hnel hnd
      rw [List.foldl_cons]
      by_cases hk : k = m
      · subst hk
        have hval := deleteNodeOnly_value_self dom st k nd hnel hnd
        have hstor := deleteNodeOnly_storage_self dom st k
        obtain ⟨ha, hb⟩ := foldDelete_preserve_none dom rest
          (deleteNodeOnly dom st k) k hstor
        exact ⟨by rw [hb, hval], ha⟩
      · obtain ⟨hstor, hval⟩ := deleteNodeOnly_ne dom st m k hk
        have hmem2 : k ∈ rest := by
          rcases List.mem_cons.mp hmem with h | h
          · exact absurd h hk
          · exact h
        exact ih (deleteNodeOnly dom st m) k nd hmem2 hnel (by rw [hstor]; exact hnd)

theorem foldDelete_itersect (dom : Dom) :
    ∀ (l : List NId) (st : TrState) (x : NId),
      x ∉ st.itersectStorage →
      x ∉ (l.foldl (deleteNodeOnly dom) st).itersectStorage := by
  intro l
  induction l with
  | nil => intro st x h; exact h
  | cons m rest ih =>
      intro st x h
      rw [List.foldl_cons]
      exact ih _ x (deleteNodeOnly_itersect_mem dom st m x h)

theorem handleTreeList_cons (dom : Dom) (n : NId) :
    ∃ L, handleTreeList dom (fuelOf dom) n = n :: L := by
  unfold fuelOf handleTreeList
  cases hk : (getNode dom n).kind <;> simp only [hk] <;> exact ⟨_, rfl⟩

/-- C5: removing an element with recursive removal restores, for every
non-element unit enumerated by the tree walk that has a record, the
live content to the stored `originalText` and deletes the record; the
element's pending viewport-gate registration is cancelled; the identity
counter is untouched and every surviving record existed before; and
under the invariant that stored ids sit below the counter, no id
present before the removal equals the id the next registration
allocates, so re-adding the identical subtree yields fresh identities. -/
theorem recursive_removal (dom : Dom) (st : TrState) (e n : NId) (nd : NodeData)
    (hel : isElement dom e = true)
    (hic : st.itersectStorage.Nodup)
    (hmem : n ∈ handleTreeList dom (fuelOf dom) e)
    (hnel : isElement dom n = false)
    (hnd : lookupA st.nodeStorage n = some nd) :
    valueOf (deleteNode dom st e) n = some nd.originalText ∧
    lookupA (deleteNode dom st e).nodeStorage n = none ∧
    e ∉ (deleteNode dom st e).itersectStorage ∧
    (deleteNode dom st e).idCounter = st.idCounter ∧
    (∀ k nd2, lookupA (deleteNode dom st e).nodeStorage k = some nd2 →
      lookupA st.nodeStorage k = some nd2) ∧
    ((∀ k nd2, lookupA st.nodeStorage k = some nd2 → nd2.id < st.idCounter) →
      ∀ k nd2, lookupA st.nodeStorage k = some nd2 →
        nd2.id ≠ (deleteNode dom st e).idCounter) := by
  have hne : n ≠ e := by
    intro h
    rw [h, hel] at hnel
    cases hnel
  unfold deleteNode
  simp only [hel, if_true]
  obtain ⟨hv, hs⟩ := foldDelete_restores dom (handleTreeList dom (fuelOf dom) e)
    st n nd hmem hnel hnd
  obtain ⟨hds, hdv⟩ := deleteNodeOnly_ne dom
    ((handleTreeList dom (fuelOf dom) e).foldl (deleteNodeOnly dom) st) e n hne
  refine ⟨?_, ?_, ?_, ?_, ?_, ?_⟩
  · rw [hdv]
    exact hv
  · rw [hds]
    exact hs
  · obtain ⟨L, hL⟩ := handleTreeList_cons dom e
    rw [hL, List.foldl_cons]
    exact deleteNodeOnly_itersect_mem dom _ e e
      (foldDelete_itersect dom L _ e
        (deleteNodeOnly_itersect_self dom st e hel hic))
  · rw [deleteNodeOnly_idCounter, foldDelete_idCounter]
  · intro k nd2 h
    exact foldDelete_storage_sub dom _ st k nd2
      (deleteNodeOnly_storage_sub dom _ e k nd2 h)
  · intro hids k nd2 h
    have hlt := hids k nd2 h
    rw [deleteNodeOnly_idCounter, foldDelete_idCounter]
    omega

/-- C5 witness state: the text node `3` of `exDom4` is tracked with
original text "Hello" while its live content is the translation. -/
def exSt5 : TrState :=
  { values := [(3, "Bonjour")], nodeStorage := [(3, ⟨0, 2, 2, "Hello", 2⟩)],
    idCounter := 1 }

theorem recursive_removal_witness :
    valueOf (deleteNode exDom4 exSt5 2) 3 = some "Hello" ∧
    lookupA (deleteNode exDom4 exSt5 2).nodeStorage 3 = none :=
  have h := recursive_removal exDom4 exSt5 2 3 ⟨0, 2, 2, "Hello", 2⟩
    (by decide) (by decide) (by decide) (by decide) (by decide)
  ⟨h.1, h.2.1⟩

/-- C8: a rejected translate call runs no fulfillment continuation in
`translateNode` (the source attaches only `.then`, so nothing of the
node state is touched and no new request is produced): the state —
including the record's `updateId`, `translateContext`, `originalText`
and the live content — is returned exactly as it was and the reason
propagates to the caller; the session layer's `.catch` increments only
the rejection counter, `.finally` releases the pending count, the
resolved counter is untouched, and the same reason is rethrown. -/
theorem rejection_keeps_state (dom : Dom) (st : TrState) (req : Request)
    (reason : String) :
    settleTranslation dom st req (.rejected reason) = (st, some reason) ∧
    (∀ s : PTState, ∀ ctx : Nat,
      (settleSession s ctx (.rejected reason)).2 = .rejected reason) ∧
    (∀ s : PTState,
      (settleSession s s.translateContext (.rejected reason)).1.rejected =
        s.rejected + 1 ∧
      (settleSession s s.translateContext (.rejected reason)).1.resolved =
        s.resolved ∧
      (settleSession s s.translateContext (.rejected reason)).1.pending =
        s.pending - 1) := by
  refine ⟨rfl, ?_, ?_⟩
  · intro s ctx
    rfl
  · intro s
    unfold settleSession
    simp

/-- C9: `observe` throws when the root is already observed and otherwise
records the watch and bootstraps with an `addNode` walk of the root;
`unobserve` throws when the root is not observed and otherwise removes
the root (restoring content through `deleteNode`) and discards the
watch. -/
theorem observe_contract (dom : Dom) (cfg : Config) (st : TrState) (n : NId) :
    (st.observedNodes.contains n = true →
      observe dom cfg st n = .error "Node already under observe") ∧
    (st.observedNodes.contains n = false →
      observe dom cfg st n =
        .ok (addNode dom cfg { st with observedNodes := n :: st.observedNodes } n)) ∧
    (st.observedNodes.contains n = false →
      unobserve dom st n = .error "Node is not under observe") ∧
    (st.observedNodes.contains n = true →
      unobserve dom st n =
        .ok { deleteNode dom st n with
          observedNodes := (deleteNode dom st n).observedNodes.erase n }) := by
  refine ⟨?_, ?_, ?_, ?_⟩ <;> intro h <;> simp [observe, unobserve, h] <;>
    simpa using h

/-- C10: every translation a session issues captures the session's epoch
token (the `localContext` of the closure `run` builds); stopping the
session mints a fresh token, and along any future interleaving of
session operations the old token never again equals the live epoch, so
the settling handlers of a call issued under the old token leave the
whole session state — in particular the counters `pending`, `resolved`
and `rejected` — unchanged, and even a late issue under the old token
throws instead of counting. -/
theorem epoch_guard (s t u : PTState) (o : Outcome)
    (hwf : s.translateContext < s.nextToken)
    (hstop : ptStop s = .ok t)
    (hreach : PTReach t u) :
    ptIssue u s.translateContext = .error "Outdated context" ∧
    (settleSession u s.translateContext o).1 = u := by
  obtain ⟨hc, hn⟩ := ptStop_ctx hstop
  obtain ⟨h1, h2⟩ := PTReach_token_lt s.translateContext hreach (by omega) (by omega)
  have hne : s.translateContext ≠ u.translateContext := by omega
  constructor
  · unfold ptIssue
    rw [if_pos hne]
  · unfold settleSession
    cases o <;> simp [hne]

/-- C10 witness session: a running session whose live epoch token is 0. -/
def exPT : PTState := { translateContext := 0, nextToken := 1, running := true }

theorem epoch_guard_witness :
    ptIssue { translateContext := 1, nextToken := 2 } 0 =
      .error "Outdated context" ∧
    (settleSession { translateContext := 1, nextToken := 2 } 0
        (.fulfilled "x")).1 =
      { translateContext := 1, nextToken := 2 } :=
  epoch_guard exPT { translateContext := 1, nextToken := 2 }
    { translateContext := 1, nextToken := 2 } (.fulfilled "x")
    (by decide) rfl (PTReach.refl _)

end DomTranslate
